import Mathlib

/-!
Verification of the language-percentage normalizer, activity scorer and card
layout of `generate_tech_stack.py` (Tech-Stack-Visualizer).

The Python code is shallowly embedded: byte counts are `ℕ`, float arithmetic
is idealized as exact rational arithmetic over `ℚ`, `OrderedDict` is an
association list with assignment semantics (existing key keeps its position
and is overwritten; new key appended), and Python's stable `sorted` is
`List.mergeSort`.
-/

namespace TechStack

/-- One entry of the language table: (language name, byte count, percentage).
This is the shape of the tuples in the `items` list of `compute_percentages`
and of the pairs `lang -> (bytes, pct)` in its returned `OrderedDict`. -/
abbrev Entry := String × ℕ × ℚ

def bytesOf (e : Entry) : ℕ := e.2.1

def pctOf (e : Entry) : ℚ := e.2.2

def labelOf (e : Entry) : String := e.1

/-- Python's `round(x, 2)`: round to the nearest hundredth. (Python rounds
the underlying binary double half-to-even; we model ideal rounding to the
nearest hundredth, which agrees away from exact half-way ties.) -/
def round2 (q : ℚ) : ℚ := ((round (q * 100) : ℤ) : ℚ) / 100

/-- `total = sum(lang_bytes.values())` (source line 121). The input
`lang_bytes` dict is modelled as an association list in key order. -/
def totalBytes (langBytes : List (String × ℕ)) : ℕ :=
  (langBytes.map Prod.snd).sum

/-- `pct = (b / total) * 100.0` (source line 127). -/
def pctShare (total b : ℕ) : ℚ := ((b : ℚ) / (total : ℚ)) * 100

/-- The `items` list built by the loop at source lines 124-131: the languages
whose percentage is NOT strictly below the threshold, in input order, with
their exact percentage. -/
def keptItems (langBytes : List (String × ℕ)) (threshold : ℚ) : List Entry :=
  (langBytes.filter
      (fun p => ¬ pctShare (totalBytes langBytes) p.2 < threshold)).map
    (fun p => (p.1, p.2, pctShare (totalBytes langBytes) p.2))

/-- The `other_bytes` accumulator (lines 125, 128-129): total bytes of the
languages whose percentage is strictly below the threshold. -/
def otherBytes (langBytes : List (String × ℕ)) (threshold : ℚ) : ℕ :=
  ((langBytes.filter
      (fun p => pctShare (totalBytes langBytes) p.2 < threshold)).map
    Prod.snd).sum

/-- `items` after the conditional append of the synthetic "Other" entry
(lines 132-133). -/
def itemsWithOther (langBytes : List (String × ℕ)) (threshold : ℚ) : List Entry :=
  if 0 < otherBytes langBytes threshold then
    keptItems langBytes threshold ++
      [("Other", otherBytes langBytes threshold,
        pctShare (totalBytes langBytes) (otherBytes langBytes threshold))]
  else keptItems langBytes threshold

/-- Stable insertion of an entry into a list sorted by descending byte count:
the entry goes in front of the first element with byte count not above its
own, i.e. after every earlier element with a strictly larger byte count and
after all equal-byte elements already present. -/
def insertByBytesDesc (e : Entry) : List Entry → List Entry
  | [] => [e]
  | x :: xs =>
    if bytesOf x ≤ bytesOf e then e :: x :: xs else x :: insertByBytesDesc e xs

/-- `items_sorted = sorted(items, key=lambda t: t[1], reverse=True)`
(line 134): Python's `sorted` is a stable sort, here descending by byte
count. Modelled as stable insertion sort; `sortByBytesDesc_eq_mergeSort`
below proves it equal to `List.mergeSort` with the same comparator, so it is
THE stable descending sort. -/
def sortByBytesDesc : List Entry → List Entry
  | [] => []
  | x :: xs => insertByBytesDesc x (sortByBytesDesc xs)

/-- Assignment `d[k] = v` on an ordered dictionary: an existing key keeps its
position and receives the new value; a fresh key is appended at the end. -/
def odAssign (d : List Entry) (e : Entry) : List Entry :=
  if d.any (fun p => p.1 = e.1) then
    d.map (fun p => if p.1 = e.1 then e else p)
  else d ++ [e]

/-- `OrderedDict(seq)`: repeated assignment, left to right. -/
def odOfList (l : List Entry) : List Entry := l.foldl odAssign []

/-- The generator `(lang, (b, round(pct, 2))) for lang, b, pct in
items_sorted` (line 135): the sorted items with percentages rounded to two
decimal places, before `OrderedDict` deduplicates labels. -/
def rawEntries (langBytes : List (String × ℕ)) (threshold : ℚ) : List Entry :=
  (sortByBytesDesc (itemsWithOther langBytes threshold)).map
    (fun t => (labelOf t, bytesOf t, round2 (pctOf t)))

/-- `compute_percentages(lang_bytes, collapse_threshold)` (source lines
119-135): collapse sub-threshold languages into "Other", sort descending by
bytes, return an ordered dict `lang -> (bytes, round(pct, 2))`. -/
def compute_percentages (langBytes : List (String × ℕ)) (threshold : ℚ) :
    List Entry :=
  if totalBytes langBytes = 0 then []
  else odOfList (rawEntries langBytes threshold)

/-- The `stats` record consumed by `generate_card_github_stats`. -/
structure Stats where
  stars : ℕ
  commits : ℕ
  prs : ℕ
  issues : ℕ
  contributed_to : ℕ
deriving DecidableEq, Repr

/-- The weighted score accumulated at source lines 389-394, with the float
literals 0.02, 0.01, 0.04, 0.02 modelled as exact decimals. -/
def scoreRaw (s : Stats) : ℚ :=
  ((min s.stars 1000 : ℕ) : ℚ) * (2 / 100)
    + ((min s.commits 2000 : ℕ) : ℚ) * (1 / 100)
    + ((min s.prs 500 : ℕ) : ℚ) * (4 / 100)
    + ((min s.issues 500 : ℕ) : ℚ) * (2 / 100)

/-- `score = max(0, min(100, score))` (source line 395). -/
def score (s : Stats) : ℚ := max 0 (min 100 (scoreRaw s))

/-- The grade mapping at source lines 397-401. -/
def gradeText (sc : ℚ) : String :=
  if 85 ≤ sc then "A+"
  else if 70 ≤ sc then "A"
  else if 55 ≤ sc then "B"
  else if 40 ≤ sc then "C"
  else "D"

/-- The gradient-variant scoring formula as the specification states it:
stars×0.2 with input capped at 300, commits×0.02 capped at 2000, PRs×0.3
capped at 200, issues×0.15 capped at 200. Stated from the spec's words, to be
compared with `score`, which is taken from the source. -/
def scoreClaimed (s : Stats) : ℚ :=
  ((min s.stars 300 : ℕ) : ℚ) * (2 / 10)
    + ((min s.commits 2000 : ℕ) : ℚ) * (2 / 100)
    + ((min s.prs 200 : ℕ) : ℚ) * (3 / 10)
    + ((min s.issues 200 : ℕ) : ℚ) * (15 / 100)

/-- `circumference = 2 * math.pi * ring_r` (source line 405), parametric in
the numeric value `pi` of `math.pi`. -/
def circumference (pi r : ℚ) : ℚ := 2 * pi * r

/-- `dash = circumference * progress` with `progress = score / 100.0`
(source lines 406-407). -/
def ringDash (pi r sc : ℚ) : ℚ := circumference pi r * (sc / 100)

/-- `gap = circumference - dash` (source line 408). -/
def ringGap (pi r sc : ℚ) : ℚ := circumference pi r - ringDash pi r sc

/-- `CARD_PADDING` (source line 30). -/
def CARD_PADDING : ℕ := 20

/-- `item_gap_x` (source line 294). -/
def item_gap_x : ℕ := 140

/-- `item_gap_y` (source line 295). -/
def item_gap_y : ℕ := 22

/-- `dot_x = lx + (idx % 2) * item_gap_x` with `lx = CARD_PADDING`
(source lines 292, 298). -/
def legendDotX (idx : ℕ) : ℕ := CARD_PADDING + (idx % 2) * item_gap_x

/-- `row_y = ly + (idx // 2) * item_gap_y` (source line 299), parametric in
the legend origin `ly`. -/
def legendRowY (ly idx : ℕ) : ℕ := ly + (idx / 2) * item_gap_y

/-- The column the legend entry at position `idx` lands in: 0 (left column)
when its dot sits at `CARD_PADDING`, 1 (right column) when shifted by
`item_gap_x`. From `dot_x` this is `idx % 2`. -/
def legendColumn (idx : ℕ) : ℕ := idx % 2

/-- Indices of an `n`-entry legend placed in the left column. -/
def column1Indices (n : ℕ) : List ℕ :=
  (List.range n).filter (fun i => legendColumn i = 0)

/-- Indices of an `n`-entry legend placed in the right column. -/
def column2Indices (n : ℕ) : List ℕ :=
  (List.range n).filter (fun i => legendColumn i = 1)

/-- The column assignment the specification claims: the first `ceil(n/2)`
entries in column 1 (index 0), the remainder in column 2. Stated from the
spec's words, to be compared with `legendColumn`. -/
def halfSplitColumn (n idx : ℕ) : ℕ := if idx < (n + 1) / 2 then 0 else 1

/-! ### Sorting infrastructure -/

theorem insertByBytesDesc_perm (e : Entry) (l : List Entry) :
    List.Perm (insertByBytesDesc e l) (e :: l) := by
  induction l with
  | nil => exact List.Perm.refl _
  | cons x xs ih =>
    by_cases h : bytesOf x ≤ bytesOf e
    · simp [insertByBytesDesc, h]
    · simpa [insertByBytesDesc, h] using
        ((ih.cons x).trans (List.Perm.swap e x xs))

theorem sortByBytesDesc_perm (l : List Entry) :
    List.Perm (sortByBytesDesc l) l := by
  induction l with
  | nil => exact List.Perm.refl _
  | cons x xs ih =>
    exact (insertByBytesDesc_perm x (sortByBytesDesc xs)).trans (ih.cons x)

theorem insertByBytesDesc_pairwise (e : Entry) (l : List Entry)
    (h : l.Pairwise (fun a b => bytesOf b ≤ bytesOf a)) :
    (insertByBytesDesc e l).Pairwise (fun a b => bytesOf b ≤ bytesOf a) := by
  induction l with
  | nil => simp [insertByBytesDesc]
  | cons x xs ih =>
    rcases List.pairwise_cons.mp h with ⟨hx, hxs⟩
    by_cases hc : bytesOf x ≤ bytesOf e
    · rw [insertByBytesDesc, if_pos hc]
      refine List.pairwise_cons.mpr ⟨?_, h⟩
      intro b hb
      rcases List.mem_cons.mp hb with rfl | hb
      · exact hc
      · exact le_trans (hx b hb) hc
    · rw [insertByBytesDesc, if_neg hc]
      refine List.pairwise_cons.mpr ⟨?_, ih hxs⟩
      intro b hb
      rcases List.mem_cons.mp ((insertByBytesDesc_perm e xs).mem_iff.mp hb) with
        rfl | hb
      · exact le_of_lt (lt_of_not_le hc)
      · exact hx b hb

theorem sortByBytesDesc_pairwise (l : List Entry) :
    (sortByBytesDesc l).Pairwise (fun a b => bytesOf b ≤ bytesOf a) := by
  induction l with
  | nil => simp [sortByBytesDesc]
  | cons x xs ih => exact insertByBytesDesc_pairwise x _ ih

theorem insertByBytesDesc_append (e : Entry) (l₁ l₂ : List Entry)
    (h₁ : ∀ b ∈ l₁, ¬ bytesOf b ≤ bytesOf e)
    (h₂ : ∀ b ∈ l₂, bytesOf b ≤ bytesOf e) :
    insertByBytesDesc e (l₁ ++ l₂) = l₁ ++ e :: l₂ := by
  induction l₁ with
  | nil =>
    cases l₂ with
    | nil => rfl
    | cons x xs =>
      simp [insertByBytesDesc, h₂ x (List.mem_cons_self x xs)]
  | cons x xs ih =>
    have hx := h₁ x (List.mem_cons_self x xs)
    simp only [List.cons_append, insertByBytesDesc, if_neg hx]
    simpa using ih (fun b hb => h₁ b (List.mem_cons_of_mem x hb))

/-- Python's `sorted` is the stable sort, and so is `List.mergeSort`: the
insertion-sort model agrees with `mergeSort` under the same comparator. -/
theorem sortByBytesDesc_eq_mergeSort (l : List Entry) :
    sortByBytesDesc l = l.mergeSort (fun a b => bytesOf b ≤ bytesOf a) := by
  have trans : ∀ a b c : Entry,
      (decide (bytesOf b ≤ bytesOf a)) = true →
      (decide (bytesOf c ≤ bytesOf b)) = true →
      (decide (bytesOf c ≤ bytesOf a)) = true := by
    intro a b c hab hbc
    simp only [decide_eq_true_eq] at *
    exact le_trans hbc hab
  have total : ∀ a b : Entry,
      ((decide (bytesOf b ≤ bytesOf a)) || (decide (bytesOf a ≤ bytesOf b)))
        = true := by
    intro a b
    simpa [Bool.or_eq_true] using (le_total (bytesOf b) (bytesOf a))
  induction l with
  | nil => simp [sortByBytesDesc]
  | cons a l ih =>
    obtain ⟨l₁, l₂, h1, h2, h3⟩ := List.mergeSort_cons trans total a l
    have hs := List.sorted_mergeSort trans total (a :: l)
    rw [h1] at hs
    have hal₂ : (a :: l₂).Pairwise
        (fun x y => decide (bytesOf y ≤ bytesOf x) = true) :=
      hs.sublist (List.sublist_append_right l₁ (a :: l₂))
    have h₂ : ∀ b ∈ l₂, bytesOf b ≤ bytesOf a := by
      intro b hb
      have := (List.pairwise_cons.mp hal₂).1 b hb
      simpa using this
    have h₁ : ∀ b ∈ l₁, ¬ bytesOf b ≤ bytesOf a := by
      intro b hb
      have := h3 b hb
      simp only [Bool.not_eq_true'] at this
      simpa using this
    calc sortByBytesDesc (a :: l)
        = insertByBytesDesc a (sortByBytesDesc l) := rfl
      _ = insertByBytesDesc a (l₁ ++ l₂) := by rw [ih, h2]
      _ = l₁ ++ a :: l₂ := insertByBytesDesc_append a l₁ l₂ h₁ h₂
      _ = (a :: l).mergeSort (fun a b => bytesOf b ≤ bytesOf a) := h1.symm

/-! ### Ordered-dictionary infrastructure -/

theorem foldl_odAssign_eq_append (l : List Entry) : ∀ acc : List Entry,
    ((acc ++ l).map labelOf).Nodup → l.foldl odAssign acc = acc ++ l := by
  induction l with
  | nil => intro acc _; simp
  | cons e l ih =>
    intro acc hnd0
    have hnd := hnd0
    rw [List.map_append, List.nodup_append] at hnd
    have hfresh : labelOf e ∉ acc.map labelOf := fun hmem =>
      hnd.2.2 hmem (List.mem_map_of_mem labelOf (List.mem_cons_self e l))
    have hassign : odAssign acc e = acc ++ [e] := by
      rw [odAssign, if_neg]
      intro hany
      rcases List.any_eq_true.mp hany with ⟨p, hp, hpe⟩
      have hpe' : labelOf p = labelOf e := by
        simpa [labelOf] using hpe
      exact hfresh (hpe' ▸ List.mem_map_of_mem labelOf hp)
    have hnd' : (((acc ++ [e]) ++ l).map labelOf).Nodup := by
      rw [List.append_assoc, List.singleton_append]
      exact hnd0
    calc (e :: l).foldl odAssign acc
        = l.foldl odAssign (odAssign acc e) := rfl
      _ = l.foldl odAssign (acc ++ [e]) := by rw [hassign]
      _ = (acc ++ [e]) ++ l := ih (acc ++ [e]) hnd'
      _ = acc ++ e :: l := by simp

theorem odOfList_eq_self (l : List Entry) (h : (l.map labelOf).Nodup) :
    odOfList l = l := by
  simpa using foldl_odAssign_eq_append l [] (by simpa using h)

/-! ### Label (key) infrastructure -/

theorem keptItems_labels (lb : List (String × ℕ)) (thr : ℚ) :
    (keptItems lb thr).map labelOf
      = (lb.filter
          (fun p => ¬ pctShare (totalBytes lb) p.2 < thr)).map Prod.fst := by
  rw [keptItems, List.map_map]
  rfl

theorem keptItems_labels_sublist (lb : List (String × ℕ)) (thr : ℚ) :
    List.Sublist ((keptItems lb thr).map labelOf) (lb.map Prod.fst) := by
  rw [keptItems_labels]
  exact (List.filter_sublist lb).map Prod.fst

theorem itemsWithOther_labels_nodup (lb : List (String × ℕ)) (thr : ℚ)
    (hnd : (lb.map Prod.fst).Nodup) (hno : "Other" ∉ lb.map Prod.fst) :
    ((itemsWithOther lb thr).map labelOf).Nodup := by
  have hkept : ((keptItems lb thr).map labelOf).Nodup :=
    hnd.sublist (keptItems_labels_sublist lb thr)
  have hother : "Other" ∉ (keptItems lb thr).map labelOf := fun h =>
    hno ((keptItems_labels_sublist lb thr).subset h)
  rw [itemsWithOther]
  split
  · rw [List.map_append, List.nodup_append]
    refine ⟨hkept, by simp, ?_⟩
    intro a ha hb
    have : a = "Other" := by simpa [labelOf] using hb
    exact hother (this ▸ ha)
  · exact hkept

theorem rawEntries_labels (lb : List (String × ℕ)) (thr : ℚ) :
    (rawEntries lb thr).map labelOf
      = (sortByBytesDesc (itemsWithOther lb thr)).map labelOf := by
  rw [rawEntries, List.map_map]
  rfl

theorem rawEntries_labels_nodup (lb : List (String × ℕ)) (thr : ℚ)
    (hnd : (lb.map Prod.fst).Nodup) (hno : "Other" ∉ lb.map Prod.fst) :
    ((rawEntries lb thr).map labelOf).Nodup := by
  rw [rawEntries_labels]
  exact ((sortByBytesDesc_perm (itemsWithOther lb thr)).map
    labelOf).nodup_iff.mpr (itemsWithOther_labels_nodup lb thr hnd hno)

/-- Under distinct input keys none of which is "Other", the final
`OrderedDict` construction does not merge anything: `compute_percentages` is
the sorted, rounded entry list itself. -/
theorem compute_percentages_eq_rawEntries (lb : List (String × ℕ)) (thr : ℚ)
    (hnd : (lb.map Prod.fst).Nodup) (hno : "Other" ∉ lb.map Prod.fst)
    (hpos : totalBytes lb ≠ 0) :
    compute_percentages lb thr = rawEntries lb thr := by
  rw [compute_percentages, if_neg hpos]
  exact odOfList_eq_self _ (rawEntries_labels_nodup lb thr hnd hno)

theorem mem_unique_of_nodup_keys {lb : List (String × ℕ)}
    (hnd : (lb.map Prod.fst).Nodup) {lang : String} {b b' : ℕ}
    (h : (lang, b) ∈ lb) (h' : (lang, b') ∈ lb) : b = b' := by
  have heq : (lang, b) = (lang, b') :=
    List.inj_on_of_nodup_map hnd h h' rfl
  exact ((Prod.mk.injEq _ _ _ _).mp heq).2

/-! ### Byte and percentage sums -/

theorem keptItems_bytes (lb : List (String × ℕ)) (thr : ℚ) :
    (keptItems lb thr).map bytesOf
      = (lb.filter
          (fun p => ¬ pctShare (totalBytes lb) p.2 < thr)).map Prod.snd := by
  rw [keptItems, List.map_map]
  rfl

theorem sum_filter_split (l : List (String × ℕ)) (p : String × ℕ → Bool) :
    ((l.filter (fun x => !p x)).map Prod.snd).sum
      + ((l.filter p).map Prod.snd).sum = (l.map Prod.snd).sum := by
  induction l with
  | nil => rfl
  | cons x xs ih =>
    cases hp : p x with
    | true =>
      rw [List.filter_cons_of_neg (by simp [hp]),
        List.filter_cons_of_pos hp]
      simp only [List.map_cons, List.sum_cons]
      omega
    | false =>
      rw [List.filter_cons_of_pos (by simp [hp]),
        List.filter_cons_of_neg (by simp [hp])]
      simp only [List.map_cons, List.sum_cons]
      omega

theorem kept_add_other_bytes (lb : List (String × ℕ)) (thr : ℚ) :
    ((keptItems lb thr).map bytesOf).sum + otherBytes lb thr
      = totalBytes lb := by
  rw [keptItems_bytes, otherBytes, totalBytes]
  have h := sum_filter_split lb
    (fun p => decide (pctShare (totalBytes lb) p.2 < thr))
  have hfun : (fun x : String × ℕ =>
      !(decide (pctShare (totalBytes lb) x.2 < thr)))
      = (fun p : String × ℕ =>
        decide (¬ pctShare (totalBytes lb) p.2 < thr)) := by
    funext p
    simp only [decide_not]
  rw [hfun] at h
  exact h

theorem itemsWithOther_bytes_sum (lb : List (String × ℕ)) (thr : ℚ) :
    ((itemsWithOther lb thr).map bytesOf).sum = totalBytes lb := by
  rw [itemsWithOther]
  split
  · rw [List.map_append, List.sum_append]
    have : ([("Other", otherBytes lb thr,
        pctShare (totalBytes lb) (otherBytes lb thr))].map bytesOf).sum
        = otherBytes lb thr := by simp [bytesOf]
    rw [this]
    exact kept_add_other_bytes lb thr
  · have h0 : otherBytes lb thr = 0 := by omega
    have := kept_add_other_bytes lb thr
    omega

theorem itemsWithOther_pct_eq (lb : List (String × ℕ)) (thr : ℚ) :
    ∀ e ∈ itemsWithOther lb thr,
      pctOf e = pctShare (totalBytes lb) (bytesOf e) := by
  intro e he
  rw [itemsWithOther] at he
  have hkept : ∀ x ∈ keptItems lb thr,
      pctOf x = pctShare (totalBytes lb) (bytesOf x) := by
    intro x hx
    rw [keptItems] at hx
    rcases List.mem_map.mp hx with ⟨p, _, rfl⟩
    rfl
  by_cases h : 0 < otherBytes lb thr
  · rw [if_pos h] at he
    rcases List.mem_append.mp he with he2 | he2
    · exact hkept e he2
    · rw [List.mem_singleton.mp he2]
      rfl
  · rw [if_neg h] at he
    exact hkept e he

theorem sum_map_pctShare (T : ℕ) (l : List Entry)
    (h : ∀ e ∈ l, pctOf e = pctShare T (bytesOf e)) :
    (l.map pctOf).sum = (((l.map bytesOf).sum : ℕ) : ℚ) / T * 100 := by
  induction l with
  | nil => simp
  | cons e l ih =>
    simp only [List.map_cons, List.sum_cons]
    rw [h e (List.mem_cons_self e l),
      ih (fun x hx => h x (List.mem_cons_of_mem e hx)), pctShare]
    push_cast
    ring

theorem itemsWithOther_pct_sum (lb : List (String × ℕ)) (thr : ℚ)
    (hpos : totalBytes lb ≠ 0) :
    ((itemsWithOther lb thr).map pctOf).sum = 100 := by
  have hT : ((totalBytes lb : ℕ) : ℚ) ≠ 0 := Nat.cast_ne_zero.mpr hpos
  rw [sum_map_pctShare (totalBytes lb) _ (itemsWithOther_pct_eq lb thr),
    itemsWithOther_bytes_sum, div_self hT, one_mul]

/-! ### Rounding infrastructure -/

theorem abs_round2_sub (q : ℚ) : |round2 q - q| ≤ 1 / 200 := by
  have h : |((round (q * 100) : ℤ) : ℚ) - q * 100| ≤ 1 / 2 := by
    rw [abs_sub_comm]
    exact abs_sub_round (q * 100)
  have heq : round2 q - q
      = (((round (q * 100) : ℤ) : ℚ) - q * 100) / 100 := by
    rw [round2]
    ring
  rw [heq, abs_div, show |(100 : ℚ)| = 100 by norm_num]
  calc |((round (q * 100) : ℤ) : ℚ) - q * 100| / 100
      ≤ (1 / 2) / 100 := (div_le_div_iff_of_pos_right (by norm_num)).mpr h
    _ = 1 / 200 := by norm_num

theorem sum_map_round2_close (l : List ℚ) :
    |(l.map round2).sum - l.sum| ≤ (l.length : ℚ) * (1 / 200) := by
  induction l with
  | nil => simp
  | cons x xs ih =>
    simp only [List.map_cons, List.sum_cons, List.length_cons]
    have h1 : round2 x + (xs.map round2).sum - (x + xs.sum)
        = (round2 x - x) + ((xs.map round2).sum - xs.sum) := by ring
    rw [h1]
    calc |(round2 x - x) + ((xs.map round2).sum - xs.sum)|
        ≤ |round2 x - x| + |(xs.map round2).sum - xs.sum| := abs_add _ _
      _ ≤ 1 / 200 + (xs.length : ℚ) * (1 / 200) :=
          add_le_add (abs_round2_sub x) ih
      _ = (((xs.length + 1 : ℕ)) : ℚ) * (1 / 200) := by
          push_cast
          ring

/-! ### Projections of `rawEntries` -/

theorem rawEntries_pcts (lb : List (String × ℕ)) (thr : ℚ) :
    (rawEntries lb thr).map pctOf
      = ((sortByBytesDesc (itemsWithOther lb thr)).map pctOf).map round2 := by
  rw [rawEntries, List.map_map, List.map_map]
  rfl

theorem rawEntries_bytes (lb : List (String × ℕ)) (thr : ℚ) :
    (rawEntries lb thr).map bytesOf
      = (sortByBytesDesc (itemsWithOther lb thr)).map bytesOf := by
  rw [rawEntries, List.map_map]
  rfl

theorem sort_map_pct_sum (l : List Entry) :
    ((sortByBytesDesc l).map pctOf).sum = (l.map pctOf).sum :=
  ((sortByBytesDesc_perm l).map pctOf).sum_eq

theorem sort_map_bytes_sum (l : List Entry) :
    ((sortByBytesDesc l).map bytesOf).sum = (l.map bytesOf).sum :=
  ((sortByBytesDesc_perm l).map bytesOf).sum_eq

/-! ### Membership infrastructure -/

theorem mem_keptItems (lb : List (String × ℕ)) (thr : ℚ) (lang : String)
    (b : ℕ) (hmem : (lang, b) ∈ lb)
    (hge : ¬ pctShare (totalBytes lb) b < thr) :
    (lang, b, pctShare (totalBytes lb) b) ∈ keptItems lb thr := by
  rw [keptItems]
  refine List.mem_map.mpr ⟨(lang, b), ?_, rfl⟩
  rw [List.mem_filter]
  exact ⟨hmem, by simpa using hge⟩

theorem keptItems_subset_itemsWithOther (lb : List (String × ℕ)) (thr : ℚ) :
    ∀ e ∈ keptItems lb thr, e ∈ itemsWithOther lb thr := by
  intro e he
  rw [itemsWithOther]
  split
  · exact List.mem_append_left _ he
  · exact he

theorem mem_rawEntries_of_mem_itemsWithOther (lb : List (String × ℕ))
    (thr : ℚ) (e : Entry) (he : e ∈ itemsWithOther lb thr) :
    (labelOf e, bytesOf e, round2 (pctOf e)) ∈ rawEntries lb thr := by
  rw [rawEntries]
  exact List.mem_map_of_mem _
    ((sortByBytesDesc_perm (itemsWithOther lb thr)).mem_iff.mpr he)

theorem mem_labels_itemsWithOther (lb : List (String × ℕ)) (thr : ℚ)
    (lang : String) (h : lang ∈ (itemsWithOther lb thr).map labelOf) :
    lang ∈ (keptItems lb thr).map labelOf
      ∨ (lang = "Other" ∧ 0 < otherBytes lb thr) := by
  rw [itemsWithOther] at h
  by_cases hc : 0 < otherBytes lb thr
  · rw [if_pos hc, List.map_append] at h
    rcases List.mem_append.mp h with h2 | h2
    · exact Or.inl h2
    · refine Or.inr ⟨?_, hc⟩
      simpa [labelOf] using h2
  · rw [if_neg hc] at h
    exact Or.inl h

theorem mem_labels_rawEntries_iff (lb : List (String × ℕ)) (thr : ℚ)
    (lang : String) :
    (lang ∈ (rawEntries lb thr).map labelOf
      ↔ lang ∈ (itemsWithOther lb thr).map labelOf) := by
  rw [rawEntries_labels]
  exact ((sortByBytesDesc_perm _).map labelOf).mem_iff

/-! ### Claims -/

/-- Claim C1, counterexample: the claimed output of normalizing
Python 800, JS 150, CSS 50 with collapse threshold 10.0 is wrong on the
code: JS holds 15% of the 1000 bytes, which is not strictly below 10%, so JS
is NOT collapsed into "Other"; the output is not the claimed two-entry list.
Entries are (label, bytes, percent). -/
theorem C1_counterexample :
    compute_percentages [("Python", 800), ("JS", 150), ("CSS", 50)] 10
      ≠ [("Python", 800, 80), ("Other", 200, 20)] := by
  norm_num [compute_percentages, totalBytes, rawEntries, itemsWithOther,
    keptItems, otherBytes, pctShare, sortByBytesDesc, insertByBytesDesc,
    odOfList, odAssign, round2, bytesOf, pctOf, labelOf, round_eq,
    List.filter, List.foldl] <;> decide

/-- Claim C1, amended: normalizing the totals Python 800, JS 150, CSS 50
with collapse threshold 10.0 returns the ordered entries
Python 80.0% (800 bytes), JS 15.0% (150 bytes), "Other" 5.0% (50 bytes):
only CSS (5% < 10%) is collapsed into "Other". -/
theorem C1_amended :
    compute_percentages [("Python", 800), ("JS", 150), ("CSS", 50)] 10
      = [("Python", 800, 80), ("JS", 150, 15), ("Other", 50, 5)] := by
  norm_num [compute_percentages, totalBytes, rawEntries, itemsWithOther,
    keptItems, otherBytes, pctShare, sortByBytesDesc, insertByBytesDesc,
    odOfList, odAssign, round2, bytesOf, pctOf, labelOf, round_eq,
    List.filter, List.foldl] <;> decide

/-- Claim C10, counterexample: byte conservation fails when an input
language is itself named "Other": with totals Other 99, X 1 and threshold
2.0, the ordered-dict construction overwrites the real "Other" language's
entry with the synthetic collapsed one, so the output's bytes sum to 1, not
to the input total 100. -/
theorem C10_counterexample :
    ((compute_percentages [("Other", 99), ("X", 1)] 2).map bytesOf).sum
      ≠ totalBytes [("Other", 99), ("X", 1)] := by
  have h : compute_percentages [("Other", 99), ("X", 1)] 2
      = [("Other", 1, 1)] := by
    norm_num [compute_percentages, totalBytes, rawEntries, itemsWithOther,
      keptItems, otherBytes, pctShare, sortByBytesDesc, insertByBytesDesc,
      odOfList, odAssign, round2, bytesOf, pctOf, labelOf, round_eq,
      List.filter, List.foldl]
  rw [h]
  decide

/-- Claim C10, amended: for every LanguageTotals with positive total bytes
whose (distinct) keys do not include the synthetic label "Other", the byte
counts of the normalizer's output (including the "Other" entry when present)
sum to the input's total byte count: collapsing neither loses nor duplicates
bytes. -/
theorem C10_amended (lb : List (String × ℕ)) (thr : ℚ)
    (hnd : (lb.map Prod.fst).Nodup) (hno : "Other" ∉ lb.map Prod.fst)
    (hpos : totalBytes lb ≠ 0) :
    ((compute_percentages lb thr).map bytesOf).sum = totalBytes lb := by
  rw [compute_percentages_eq_rawEntries lb thr hnd hno hpos, rawEntries_bytes,
    sort_map_bytes_sum, itemsWithOther_bytes_sum]

/-- Claim C10, witness: the amended conservation theorem applied at the
concrete input A 1, B 99 with threshold 1. -/
theorem C10_witness :
    ((compute_percentages [("A", 1), ("B", 99)] 1).map bytesOf).sum
      = totalBytes [("A", 1), ("B", 99)] :=
  C10_amended [("A", 1), ("B", 99)] 1 (by decide) (by decide) (by decide)

/-- Claim C3, counterexample: with seven languages of one byte each and
threshold 1.0, every percentage 100/7 rounds to 14.29, and the displayed
percentages sum to 100.03, outside the claimed 100.0 ± 0.01 tolerance. -/
theorem C3_counterexample :
    ¬ |((compute_percentages
          [("A", 1), ("B", 1), ("C", 1), ("D", 1), ("E", 1), ("F", 1),
            ("G", 1)] 1).map pctOf).sum - 100| ≤ 1 / 100 := by
  have h : compute_percentages
      [("A", 1), ("B", 1), ("C", 1), ("D", 1), ("E", 1), ("F", 1),
        ("G", 1)] 1
      = [("A", 1, 1429 / 100), ("B", 1, 1429 / 100), ("C", 1, 1429 / 100),
        ("D", 1, 1429 / 100), ("E", 1, 1429 / 100), ("F", 1, 1429 / 100),
        ("G", 1, 1429 / 100)] := by
    norm_num [compute_percentages, totalBytes, rawEntries, itemsWithOther,
      keptItems, otherBytes, pctShare, sortByBytesDesc, insertByBytesDesc,
      odOfList, odAssign, round2, bytesOf, pctOf, labelOf, round_eq,
      List.filter, List.foldl] <;> rfl
  rw [h]
  norm_num [pctOf, abs_le]

/-- Claim C3, amended: for every LanguageTotals with positive total bytes
whose (distinct) keys do not include "Other", the rounded percentages of the
normalizer's output sum to 100.0 within ± 0.005 per output entry (each
2-decimal rounding moves a percentage by at most 0.005; the exact
percentages sum to exactly 100). -/
theorem C3_amended (lb : List (String × ℕ)) (thr : ℚ)
    (hnd : (lb.map Prod.fst).Nodup) (hno : "Other" ∉ lb.map Prod.fst)
    (hpos : totalBytes lb ≠ 0) :
    |((compute_percentages lb thr).map pctOf).sum - 100|
      ≤ ((compute_percentages lb thr).length : ℚ) * (1 / 200) := by
  rw [compute_percentages_eq_rawEntries lb thr hnd hno hpos]
  have hsum : ((sortByBytesDesc (itemsWithOther lb thr)).map pctOf).sum
      = 100 := by
    rw [sort_map_pct_sum]
    exact itemsWithOther_pct_sum lb thr hpos
  have hlen : (rawEntries lb thr).length
      = ((sortByBytesDesc (itemsWithOther lb thr)).map pctOf).length := by
    rw [rawEntries]
    simp
  rw [hlen, rawEntries_pcts]
  have h := sum_map_round2_close
    ((sortByBytesDesc (itemsWithOther lb thr)).map pctOf)
  rw [hsum] at h
  exact h

/-- Claim C3, witness: the amended sum bound applied at the concrete input
A 1, B 99 with threshold 1. -/
theorem C3_witness :
    |((compute_percentages [("A", 1), ("B", 99)] 1).map pctOf).sum - 100|
      ≤ ((compute_percentages [("A", 1), ("B", 99)] 1).length : ℚ)
        * (1 / 200) :=
  C3_amended [("A", 1), ("B", 99)] 1 (by decide) (by decide) (by decide)

theorem countP_label_le_one (l : List Entry) (s : String)
    (hnd : (l.map labelOf).Nodup) :
    l.countP (fun e => decide (labelOf e = s)) ≤ 1 := by
  induction l with
  | nil => simp
  | cons e l ih =>
    rw [List.map_cons, List.nodup_cons] at hnd
    by_cases he : labelOf e = s
    · rw [List.countP_cons_of_pos _ _ (by simpa using he)]
      have hz : l.countP (fun e => decide (labelOf e = s)) = 0 := by
        rw [List.countP_eq_zero]
        intro a ha
        simp only [decide_eq_true_eq]
        intro hs
        have : labelOf e ∈ l.map labelOf := by
          rw [he, ← hs]
          exact List.mem_map_of_mem labelOf ha
        exact hnd.1 this
      omega
    · rw [List.countP_cons_of_neg _ _ (by simpa using he)]
      exact ih hnd.2

/-- Claim C4, counterexample: the output can contain an entry labeled
"Other" even though no input language's share is below the threshold: when
the single input language is itself named "Other" (share 100% ≥ 1%), the
output keeps that label with no collapsed bytes at all. -/
theorem C4_counterexample :
    "Other" ∈ (compute_percentages [("Other", 100)] 1).map labelOf
    ∧ ∀ p ∈ [(("Other" : String), (100 : ℕ))],
        ¬ pctShare (totalBytes [("Other", 100)]) p.2 < 1 := by
  constructor
  · have h : compute_percentages [("Other", 100)] 1
        = [("Other", 100, 100)] := by
      norm_num [compute_percentages, totalBytes, rawEntries, itemsWithOther,
        keptItems, otherBytes, pctShare, sortByBytesDesc, insertByBytesDesc,
        odOfList, odAssign, round2, bytesOf, pctOf, labelOf, round_eq,
        List.filter, List.foldl]
    rw [h]
    simp [labelOf]
  · intro p hp
    rw [List.mem_singleton] at hp
    subst hp
    norm_num [pctShare, totalBytes]

/-- Claim C4, amended: provided the input's (distinct) keys do not include
the synthetic label "Other", the normalizer's output contains at most one
entry labeled "Other", and such an entry is present only if at least one
input language's percentage share is strictly below the threshold and the
collapsed byte count is positive. -/
theorem C4_amended (lb : List (String × ℕ)) (thr : ℚ)
    (hnd : (lb.map Prod.fst).Nodup) (hno : "Other" ∉ lb.map Prod.fst) :
    (compute_percentages lb thr).countP
        (fun e => decide (labelOf e = "Other")) ≤ 1
    ∧ ("Other" ∈ (compute_percentages lb thr).map labelOf →
        (∃ p ∈ lb, pctShare (totalBytes lb) p.2 < thr)
          ∧ 0 < otherBytes lb thr) := by
  by_cases hpos : totalBytes lb = 0
  · rw [compute_percentages, if_pos hpos]
    simp
  · rw [compute_percentages_eq_rawEntries lb thr hnd hno hpos]
    refine ⟨countP_label_le_one _ _
      (rawEntries_labels_nodup lb thr hnd hno), ?_⟩
    intro hmem
    have h2 := (mem_labels_rawEntries_iff lb thr "Other").mp hmem
    rcases mem_labels_itemsWithOther lb thr "Other" h2 with hk | ⟨_, hob⟩
    · exact absurd ((keptItems_labels_sublist lb thr).subset hk) hno
    · refine ⟨?_, hob⟩
      have hne : lb.filter
          (fun p => pctShare (totalBytes lb) p.2 < thr) ≠ [] := by
        intro h0
        rw [otherBytes, h0] at hob
        simp at hob
      rcases List.exists_mem_of_ne_nil _ hne with ⟨p, hp⟩
      rcases List.mem_filter.mp hp with ⟨hplb, hpred⟩
      exact ⟨p, hplb, by simpa using hpred⟩

/-- Claim C4, witness: the amended theorem applied at the concrete input
A 99, B 1 with threshold 2 (B's 1% < 2% collapses into "Other"). -/
theorem C4_witness :
    (compute_percentages [("A", 99), ("B", 1)] 2).countP
        (fun e => decide (labelOf e = "Other")) ≤ 1
    ∧ ("Other" ∈ (compute_percentages [("A", 99), ("B", 1)] 2).map labelOf →
        (∃ p ∈ [(("A" : String), (99 : ℕ)), ("B", 1)],
          pctShare (totalBytes [("A", 99), ("B", 1)]) p.2 < 2)
          ∧ 0 < otherBytes [("A", 99), ("B", 1)] 2) :=
  C4_amended [("A", 99), ("B", 1)] 2 (by decide) (by decide)

/-- Claim C5, counterexample: descending byte order fails when an input
language is itself named "Other": with totals Other 900, X 5, Y 95 and
threshold 1, the ordered-dict overwrite leaves the entries
("Other", 5 bytes) before ("Y", 95 bytes). -/
theorem C5_counterexample :
    ¬ (compute_percentages [("Other", 900), ("X", 5), ("Y", 95)] 1).Pairwise
        (fun a b => bytesOf b ≤ bytesOf a) := by
  have h : compute_percentages [("Other", 900), ("X", 5), ("Y", 95)] 1
      = [("Other", 5, 1 / 2), ("Y", 95, 19 / 2)] := by
    norm_num [compute_percentages, totalBytes, rawEntries, itemsWithOther,
      keptItems, otherBytes, pctShare, sortByBytesDesc, insertByBytesDesc,
      odOfList, odAssign, round2, bytesOf, pctOf, labelOf, round_eq,
      List.filter, List.foldl] <;> rfl
  rw [h]
  intro hp
  have := (List.pairwise_cons.mp hp).1 ("Y", 95, 19 / 2)
    (List.mem_singleton.mpr rfl)
  simp [bytesOf] at this

/-- Claim C5, amended: provided the input's (distinct) keys do not include
"Other", the normalizer's output is ordered by non-increasing byte count,
and (when the total is positive) it is a permutation of the kept entries
together with the synthetic "Other" entry — i.e. "Other" participates in
the same descending sort rather than being forced to the end. -/
theorem C5_amended (lb : List (String × ℕ)) (thr : ℚ)
    (hnd : (lb.map Prod.fst).Nodup) (hno : "Other" ∉ lb.map Prod.fst) :
    (compute_percentages lb thr).Pairwise (fun a b => bytesOf b ≤ bytesOf a)
    ∧ (totalBytes lb ≠ 0 →
        List.Perm (compute_percentages lb thr)
          ((itemsWithOther lb thr).map
            (fun t => (labelOf t, bytesOf t, round2 (pctOf t))))) := by
  by_cases hpos : totalBytes lb = 0
  · rw [compute_percentages, if_pos hpos]
    exact ⟨List.Pairwise.nil, fun h => absurd hpos h⟩
  · rw [compute_percentages_eq_rawEntries lb thr hnd hno hpos]
    constructor
    · rw [rawEntries]
      refine List.Pairwise.map _ ?_
        (sortByBytesDesc_pairwise (itemsWithOther lb thr))
      intro a b h
      simpa [bytesOf] using h
    · intro _
      rw [rawEntries]
      exact (sortByBytesDesc_perm (itemsWithOther lb thr)).map _

/-- Claim C5, witness: the amended ordering theorem applied at the concrete
input A 1, B 99 with threshold 1. -/
theorem C5_witness :
    (compute_percentages [("A", 1), ("B", 99)] 1).Pairwise
        (fun a b => bytesOf b ≤ bytesOf a)
    ∧ (totalBytes [("A", 1), ("B", 99)] ≠ 0 →
        List.Perm (compute_percentages [("A", 1), ("B", 99)] 1)
          ((itemsWithOther [("A", 1), ("B", 99)] 1).map
            (fun t => (labelOf t, bytesOf t, round2 (pctOf t))))) :=
  C5_amended [("A", 1), ("B", 99)] 1 (by decide) (by decide)

/-- Claim C2, counterexample: an input language named "Other" whose
percentage exactly equals the threshold does NOT appear as an individual
entry: with totals Other 10, A 989, B 1 and threshold 1.0 the language
"Other" holds exactly 1%, yet the ordered-dict overwrite replaces its entry
with the synthetic collapsed one (1 byte, 0.1%). -/
theorem C2_counterexample :
    pctShare (totalBytes [("Other", 10), ("A", 989), ("B", 1)]) 10 = 1
    ∧ ("Other", 10,
        round2 (pctShare (totalBytes [("Other", 10), ("A", 989), ("B", 1)])
          10))
      ∉ compute_percentages [("Other", 10), ("A", 989), ("B", 1)] 1 := by
  have hpct : pctShare (totalBytes [("Other", 10), ("A", 989), ("B", 1)]) 10
      = 1 := by
    norm_num [pctShare, totalBytes]
  refine ⟨hpct, ?_⟩
  rw [hpct]
  have h : compute_percentages [("Other", 10), ("A", 989), ("B", 1)] 1
      = [("A", 989, 989 / 10), ("Other", 1, 1 / 10)] := by
    norm_num [compute_percentages, totalBytes, rawEntries, itemsWithOther,
      keptItems, otherBytes, pctShare, sortByBytesDesc, insertByBytesDesc,
      odOfList, odAssign, round2, bytesOf, pctOf, labelOf, round_eq,
      List.filter, List.foldl] <;> rfl
  have hr : round2 1 = 1 := by
    rw [round2]
    norm_num [round_eq]
  rw [h, hr]
  decide

/-- Claim C2, amended: for every LanguageTotals with distinct keys none of
which is "Other", positive total bytes and every threshold: a language whose
exact percentage equals the threshold appears as an individual output entry
(with its own byte count and rounded percentage), while a language whose
percentage is strictly below the threshold does not appear among the output
labels and its bytes are counted in the "Other" accumulator. -/
theorem C2_amended (lb : List (String × ℕ)) (thr : ℚ)
    (hnd : (lb.map Prod.fst).Nodup) (hno : "Other" ∉ lb.map Prod.fst)
    (hpos : totalBytes lb ≠ 0) (lang : String) (b : ℕ)
    (hmem : (lang, b) ∈ lb) :
    (pctShare (totalBytes lb) b = thr →
      (lang, b, round2 thr) ∈ compute_percentages lb thr)
    ∧ (pctShare (totalBytes lb) b < thr →
        lang ∉ (compute_percentages lb thr).map labelOf
        ∧ (lang, b) ∈ lb.filter
            (fun p => pctShare (totalBytes lb) p.2 < thr)
        ∧ b ≤ otherBytes lb thr) := by
  constructor
  · intro heq
    have hge : ¬ pctShare (totalBytes lb) b < thr := by
      rw [heq]
      exact lt_irrefl thr
    have h1 := mem_keptItems lb thr lang b hmem hge
    have h2 := keptItems_subset_itemsWithOther lb thr _ h1
    have h3 := mem_rawEntries_of_mem_itemsWithOther lb thr _ h2
    rw [compute_percentages_eq_rawEntries lb thr hnd hno hpos]
    rw [heq] at h3
    exact h3
  · intro hlt
    have hfil : (lang, b) ∈ lb.filter
        (fun p => pctShare (totalBytes lb) p.2 < thr) := by
      rw [List.mem_filter]
      exact ⟨hmem, by simpa using hlt⟩
    refine ⟨?_, hfil, ?_⟩
    · intro hmem2
      rw [compute_percentages_eq_rawEntries lb thr hnd hno hpos] at hmem2
      have hlab := (mem_labels_rawEntries_iff lb thr lang).mp hmem2
      rcases mem_labels_itemsWithOther lb thr lang hlab with hk | ⟨hlo, _⟩
      · rw [keptItems_labels] at hk
        rcases List.mem_map.mp hk with ⟨p, hp, hfst⟩
        rcases List.mem_filter.mp hp with ⟨hplb, hpred⟩
        obtain ⟨pf, ps⟩ := p
        simp only at hfst
        subst hfst
        have hbs : b = ps := mem_unique_of_nodup_keys hnd hmem hplb
        subst hbs
        simp only [decide_eq_true_eq] at hpred
        exact hpred hlt
      · exact hno (hlo ▸ List.mem_map.mpr ⟨(lang, b), hmem, rfl⟩)
    · rw [otherBytes]
      exact List.single_le_sum (fun x _ => Nat.zero_le x) b
        (List.mem_map.mpr ⟨(lang, b), hfil, rfl⟩)

/-- Claim C2, witness: the amended threshold-boundary theorem applied at
totals A 1, B 99 with threshold 1, where language A holds exactly 1%. -/
theorem C2_witness :
    ("A", 1, round2 1) ∈ compute_percentages [("A", 1), ("B", 99)] 1 :=
  (C2_amended [("A", 1), ("B", 99)] 1 (by decide) (by decide) (by decide)
    "A" 1 (by decide)).1 (by norm_num [pctShare, totalBytes])

/-- Claim C6, counterexample: the claimed gradient-variant weights do not
match the code. At stars 300 (others 0) the claimed formula
(stars×0.2, cap 300) gives 60, but the code (min(stars,1000)×0.02) gives 6,
and the rendered grade is "D", not the "B" the claimed weights would give. -/
theorem C6_counterexample :
    score ⟨300, 0, 0, 0, 0⟩ = 6
    ∧ scoreClaimed ⟨300, 0, 0, 0, 0⟩ = 60
    ∧ score ⟨300, 0, 0, 0, 0⟩ ≠ scoreClaimed ⟨300, 0, 0, 0, 0⟩
    ∧ gradeText (score ⟨300, 0, 0, 0, 0⟩) = "D" := by
  have hs : score ⟨300, 0, 0, 0, 0⟩ = 6 := by
    norm_num [score, scoreRaw, min_def, max_def]
  have hc : scoreClaimed ⟨300, 0, 0, 0, 0⟩ = 60 := by
    norm_num [scoreClaimed, min_def]
  refine ⟨hs, hc, ?_, ?_⟩
  · rw [hs, hc]
    norm_num
  · rw [hs, gradeText]
    norm_num

/-- Claim C6, amended: the gradient card's score is
min(stars,1000)×0.02 + min(commits,2000)×0.01 + min(prs,500)×0.04 +
min(issues,500)×0.02, clamped to [0,100]; the grade is "A+" when the score
is ≥ 85, "A" when ≥ 70, "B" when ≥ 55, "C" when ≥ 40, and "D" otherwise. -/
theorem C6_amended (s : Stats) :
    score s = max 0 (min 100
      (((min s.stars 1000 : ℕ) : ℚ) * (2 / 100)
        + ((min s.commits 2000 : ℕ) : ℚ) * (1 / 100)
        + ((min s.prs 500 : ℕ) : ℚ) * (4 / 100)
        + ((min s.issues 500 : ℕ) : ℚ) * (2 / 100)))
    ∧ (85 ≤ score s → gradeText (score s) = "A+")
    ∧ (70 ≤ score s → score s < 85 → gradeText (score s) = "A")
    ∧ (55 ≤ score s → score s < 70 → gradeText (score s) = "B")
    ∧ (40 ≤ score s → score s < 55 → gradeText (score s) = "C")
    ∧ (score s < 40 → gradeText (score s) = "D") := by
  refine ⟨rfl, ?_, ?_, ?_, ?_, ?_⟩
  · intro h85
    rw [gradeText, if_pos h85]
  · intro h70 h85
    rw [gradeText, if_neg (by linarith), if_pos h70]
  · intro h55 h70
    rw [gradeText, if_neg (by linarith), if_neg (by linarith), if_pos h55]
  · intro h40 h55
    rw [gradeText, if_neg (by linarith), if_neg (by linarith),
      if_neg (by linarith), if_pos h40]
  · intro h40
    rw [gradeText, if_neg (by linarith), if_neg (by linarith),
      if_neg (by linarith), if_neg (by linarith)]

/-- Claim C6, witness: the amended theorem applied at all-zero counters,
whose score 0 falls in the "D" band. -/
theorem C6_witness : gradeText (score ⟨0, 0, 0, 0, 0⟩) = "D" :=
  (C6_amended ⟨0, 0, 0, 0, 0⟩).2.2.2.2.2
    (by norm_num [score, scoreRaw, min_def, max_def])

/-- Claim C7: increasing any single counter of the stats card (stars,
commits, PRs, issues, or the contributed-to count, which the formula
ignores) while holding the others fixed never decreases the computed score,
and the score always lies in [0, 100]. -/
theorem C7_monotone_bounded (s : Stats) (n n' : ℕ) (h : n ≤ n') :
    score { s with stars := n } ≤ score { s with stars := n' }
    ∧ score { s with commits := n } ≤ score { s with commits := n' }
    ∧ score { s with prs := n } ≤ score { s with prs := n' }
    ∧ score { s with issues := n } ≤ score { s with issues := n' }
    ∧ score { s with contributed_to := n }
        ≤ score { s with contributed_to := n' }
    ∧ 0 ≤ score s ∧ score s ≤ 100 := by
  have hclamp : ∀ x y : ℚ, x ≤ y →
      max 0 (min 100 x) ≤ max 0 (min 100 y) := fun x y hxy =>
    max_le_max (le_refl 0) (min_le_min (le_refl 100) hxy)
  refine ⟨?_, ?_, ?_, ?_, ?_, ?_, ?_⟩
  · apply hclamp
    simp only [scoreRaw]
    gcongr
  · apply hclamp
    simp only [scoreRaw]
    gcongr
  · apply hclamp
    simp only [scoreRaw]
    gcongr
  · apply hclamp
    simp only [scoreRaw]
    gcongr
  · exact le_rfl
  · exact le_max_left 0 _
  · exact max_le (by norm_num) (min_le_left 100 _)

/-- Claim C7, witness: bounds of the score at a concrete counter record,
obtained from the monotonicity theorem at stars 3 ≤ 7. -/
theorem C7_witness :
    0 ≤ score ⟨5, 10, 2, 3, 4⟩ ∧ score ⟨5, 10, 2, 3, 4⟩ ≤ 100 :=
  (C7_monotone_bounded ⟨5, 10, 2, 3, 4⟩ 3 7 (by norm_num)).2.2.2.2.2

/-- Claim C8: for every score in [0,100], ring radius and value of pi, the
grade ring's filled arc (stroke-dasharray dash) is 2·pi·r·(score/100), the
gap is 2·pi·r·(1 − score/100), and dash plus gap is the full circumference
2·pi·r. -/
theorem C8_ring_arc (pi r sc : ℚ) (h0 : 0 ≤ sc) (h100 : sc ≤ 100) :
    ringDash pi r sc = circumference pi r * (sc / 100)
    ∧ ringGap pi r sc = circumference pi r * (1 - sc / 100)
    ∧ ringDash pi r sc + ringGap pi r sc = circumference pi r := by
  refine ⟨rfl, ?_, ?_⟩
  · rw [ringGap, ringDash]
    ring
  · rw [ringGap]
    ring

/-- Claim C8, witness: the ring-arc theorem at score 25, radius 2 and
pi set to 3: dash is a quarter of the circumference and the gap
three quarters. -/
theorem C8_witness :
    ringDash 3 2 25 = circumference 3 2 * (25 / 100)
    ∧ ringGap 3 2 25 = circumference 3 2 * (1 - 25 / 100)
    ∧ ringDash 3 2 25 + ringGap 3 2 25 = circumference 3 2 :=
  C8_ring_arc 3 2 25 (by norm_num) (by norm_num)

/-- Claim C9, counterexample: the two-column legend is filled round-robin by
index parity, not by a first-half/second-half split: with 3 entries the
claimed split puts entry index 1 (second of the first ceil(3/2) = 2 entries)
in column 1, but the code places it in column 2 (its dot is drawn at
x = 160, not at CARD_PADDING = 20). -/
theorem C9_counterexample :
    legendColumn 1 = 1 ∧ halfSplitColumn 3 1 = 0
    ∧ legendColumn 1 ≠ halfSplitColumn 3 1
    ∧ legendDotX 1 = 160 ∧ legendDotX 0 = 20 := by
  decide

/-- Claim C9, amended: the full-breakdown legend assigns entry index i to
column i mod 2 (dot at CARD_PADDING + (i mod 2)·item_gap_x), so for N
entries column 1 receives ceil(N/2) = (N+1)/2 entries (the even indices) and
column 2 receives floor(N/2) = N/2 (the odd indices); the counts sum to N
for every N (the layout is total, including N = 0), and for N = 1 column 2
is empty. -/
theorem C9_amended (n : ℕ) :
    (∀ i, legendDotX i = CARD_PADDING + (i % 2) * item_gap_x)
    ∧ (column1Indices n).length = (n + 1) / 2
    ∧ (column2Indices n).length = n / 2
    ∧ (column1Indices n).length + (column2Indices n).length = n
    ∧ column2Indices 1 = [] := by
  have key : ∀ m : ℕ, (column1Indices m).length = (m + 1) / 2
      ∧ (column2Indices m).length = m / 2 := by
    intro m
    induction m with
    | zero => exact ⟨rfl, rfl⟩
    | succ k ih =>
      have hsplit1 : column1Indices (k + 1)
          = column1Indices k ++ (if k % 2 = 0 then [k] else []) := by
        rw [column1Indices, column1Indices, List.range_succ,
          List.filter_append]
        congr 1
        by_cases hk : k % 2 = 0
        · rw [if_pos hk]
          simp [legendColumn, hk]
        · rw [if_neg hk]
          simp [legendColumn, hk]
      have hsplit2 : column2Indices (k + 1)
          = column2Indices k ++ (if k % 2 = 1 then [k] else []) := by
        rw [column2Indices, column2Indices, List.range_succ,
          List.filter_append]
        congr 1
        by_cases hk : k % 2 = 1
        · rw [if_pos hk]
          simp [legendColumn, hk]
        · rw [if_neg hk]
          have hk0 : k % 2 = 0 := by omega
          simp [legendColumn, hk0]
      rcases ih with ⟨ih1, ih2⟩
      constructor
      · rw [hsplit1, List.length_append, ih1]
        by_cases hk : k % 2 = 0
        · rw [if_pos hk]
          simp only [List.length_singleton]
          omega
        · rw [if_neg hk]
          simp only [List.length_nil]
          omega
      · rw [hsplit2, List.length_append, ih2]
        by_cases hk : k % 2 = 1
        · rw [if_pos hk]
          simp only [List.length_singleton]
          omega
        · rw [if_neg hk]
          simp only [List.length_nil]
          omega
  refine ⟨fun i => rfl, (key n).1, (key n).2, ?_, by decide⟩
  rw [(key n).1, (key n).2]
  omega

/-- Claim C9, witness: concrete column counts for a 3-entry legend, from the
amended theorem: 2 entries left, 1 entry right. -/
theorem C9_witness :
    (column1Indices 3).length = 2 ∧ (column2Indices 3).length = 1 :=
  ⟨(C9_amended 3).2.1, (C9_amended 3).2.2.1⟩

end TechStack
